import Mathlib

/-!
Verification of `priority` (python-hyper), a HTTP/2 priority tree.

The development shallowly embeds `src/priority/priority.py`.  Python objects
are mutable and aliased, so the embedding is store-based: every `Stream`
object ever allocated lives at an address (its index) in the tree's `store`,
and both the top level list and the `children` lists hold addresses, exactly
as the Python lists hold object references.  The `_streams` dict is an
association list from stream id to address with Python dict semantics
(lookup of the first matching key; assignment overwrites in place or
appends).  Methods that can mutate the tree return the new tree (or an
error); `priorities`, which returns a value, is translated in state-passing
style and returns the pair (result, tree after the call).

Numeric weights are rationals: Python 3's true division `/` is rational
division on the integer weights involved.
-/

namespace Priority

/-- A stream node, mirroring `class Stream`: the fields set in
`Stream.__init__` are `stream_id`, `weight` and `children`.  `children`
holds store addresses, as the Python list holds object references. -/
structure Stream where
  stream_id : Nat
  weight : ℚ
  children : List Nat
deriving Repr, DecidableEq

/-- The state of a `PriorityTree`: the store of all allocated `Stream`
objects (addresses are list indices), `_top_level` and `_streams`.
`PriorityTree.__init__` takes no other argument: there is no
`maximum_streams` field in this code. -/
structure PriorityTree where
  store : List Stream
  top_level : List Nat
  streams : List (Nat × Nat)
deriving Repr, DecidableEq

/-- The tree produced by `PriorityTree.__init__`: both `_top_level` and
`_streams` start empty (no root node is materialised in this code). -/
def PriorityTree.fresh : PriorityTree := ⟨[], [], []⟩

/-- The errors the embedded operations can surface.  `keyError` and
`assertionError` are the Python exceptions the source can actually raise;
the named stream errors are the taxonomy of the package that the test
suite expects (`DuplicateStreamError`, `TooManyStreamsError`,
`DeadlockError`). -/
inductive PriorityError where
  | keyError : Nat → PriorityError
  | assertionError : PriorityError
  | valueError : PriorityError
  | duplicateStreamError : PriorityError
  | tooManyStreamsError : PriorityError
  | deadlockError : PriorityError
deriving Repr, DecidableEq

/-- Python dict lookup `d[k]` on the association list (first match). -/
def dictGet (d : List (Nat × Nat)) (k : Nat) : Option Nat :=
  (d.find? (fun p => p.1 == k)).map (·.2)

/-- Python dict assignment `d[k] = v`: overwrite the existing entry in
place, else append. -/
def dictSet (d : List (Nat × Nat)) (k v : Nat) : List (Nat × Nat) :=
  if d.any (fun p => p.1 == k) then
    d.map (fun p => if p.1 == k then (k, v) else p)
  else
    d ++ [(k, v)]

/-- `PriorityTree.insert_stream`.  Translated line by line:

* `stream = Stream(stream_id, weight)` allocates a fresh object (the next
  store address);
* in the exclusive branch, `assert depends_on is not None`, then the dict
  lookup `self._streams[depends_on]` (KeyError when absent), then
  `_exclusive_insert(parent_stream, stream)` which swings
  `parent_stream.children` to `[stream]` and gives `stream` the parent's
  former children; the branch returns without touching `self._streams`;
* otherwise `if depends_on:` (0 and None are falsy) picks the parent's
  `children` or `self._top_level` as the level, appends the new object and
  registers it in `self._streams`. -/
def PriorityTree.insert_stream (t : PriorityTree) (stream_id : Nat)
    (depends_on : Option Nat := none) (weight : ℚ := 16)
    (exclusive : Bool := false) : Except PriorityError PriorityTree :=
  let addr := t.store.length
  let stream : Stream := ⟨stream_id, weight, []⟩
  if exclusive then
    match depends_on with
    | none => .error .assertionError
    | some d =>
      match dictGet t.streams d with
      | none => .error (.keyError d)
      | some pa =>
        match t.store.get? pa with
        | none => .error (.keyError d)
        | some parent_stream =>
          let store1 := t.store ++ [stream]
          let store2 := store1.set pa { parent_stream with children := [addr] }
          let store3 := store2.set addr { stream with children := parent_stream.children }
          .ok { t with store := store3 }
  else
    match depends_on with
    | some d =>
      if d = 0 then
        .ok { store := t.store ++ [stream],
              top_level := t.top_level ++ [addr],
              streams := dictSet t.streams stream_id addr }
      else
        match dictGet t.streams d with
        | none => .error (.keyError d)
        | some pa =>
          match t.store.get? pa with
          | none => .error (.keyError d)
          | some parent_stream =>
            let store1 := t.store ++ [stream]
            let store2 := store1.set pa
              { parent_stream with children := parent_stream.children ++ [addr] }
            .ok { store := store2,
                  top_level := t.top_level,
                  streams := dictSet t.streams stream_id addr }
    | none =>
      .ok { store := t.store ++ [stream],
            top_level := t.top_level ++ [addr],
            streams := dictSet t.streams stream_id addr }

/-- Dereference a list of store addresses, as Python iterates the object
references in a list.  (For the trees the API builds, every address is
valid, so the `filterMap` drops nothing.) -/
def resolve (store : List Stream) (addrs : List Nat) : List Stream :=
  addrs.filterMap store.get?

/-- `level_weight` from `_walk`: `sum(s.weight for s in streams)`. -/
def level_weight (streams : List Stream) : ℚ :=
  (streams.map Stream.weight).sum

/-- `effective_stream_weight` from `_walk`:
`(weight / total_sibling_weight) * parent_weight`. -/
def effective_stream_weight (weight total_sibling_weight parent_weight : ℚ) : ℚ :=
  (weight / total_sibling_weight) * parent_weight

/-- The loop of `_walk`, with the deque made explicit and a fuel bound on
the number of loop iterations (the Python loop diverges on a cyclic store,
so the embedding returns `none` when the fuel runs out).  Each iteration
pops `(stream, effective_weight)`; a stream in `stream_filter` is expanded
into its children with their effective weights appended at the back of the
deque; any other stream is yielded as a shallow copy whose `weight` is
replaced by its effective weight (and whose `children` still alias the
tree's addresses, as `copy.copy` shares the list). -/
def walkAux (store : List Stream) (stream_filter : List Nat) :
    Nat → List (Stream × ℚ) → Option (List Stream)
  | _, [] => some []
  | 0, _ :: _ => none
  | fuel + 1, (stream, effective_weight) :: rest =>
    if stream_filter.contains stream.stream_id then
      let kids := resolve store stream.children
      let total_weight := level_weight kids
      walkAux store stream_filter fuel
        (rest ++ kids.map (fun c =>
          (c, effective_stream_weight c.weight total_weight stream.weight)))
    else
      match walkAux store stream_filter fuel rest with
      | none => none
      | some out => some ({ stream with weight := effective_weight } :: out)

/-- `PriorityTree._walk(stream_filter)`: the deque starts with
`(s, s.weight)` for each top-level stream. -/
def PriorityTree.walk (t : PriorityTree) (stream_filter : List Nat)
    (fuel : Nat) : Option (List Stream) :=
  walkAux t.store stream_filter fuel
    ((resolve t.store t.top_level).map (fun s => (s, s.weight)))

/-- `set(self._streams.keys())`, as a list of keys. -/
def PriorityTree.keys (t : PriorityTree) : List Nat :=
  t.streams.map Prod.fst

/-- A stream reference as returned to the caller of `priorities`: either
one of the tree's own `Stream` objects (identified by its store address —
the fast path `Priorities(self._top_level)` hands out the tree's nodes
themselves) or a fresh copy produced by `_walk`. -/
inductive StreamRef where
  | owned : Nat → StreamRef
  | copied : Stream → StreamRef
deriving Repr, DecidableEq

/-- Whether a returned reference aliases a node owned by the tree. -/
def StreamRef.isOwned : StreamRef → Bool
  | .owned _ => true
  | .copied _ => false

/-- `PriorityTree.priorities(blocked, unblocked)`, in state-passing style:
the result is the pair of the returned stream sequence (the streams the
returned `Priorities` object holds, in order) and the tree after the call.
`none` as first component means the walk did not terminate within `fuel`
iterations.  Both arguments `None` takes the fast path returning the
tree's own top-level nodes; both non-`None` raises `ValueError`; an
`unblocked` argument is converted to the blocked set
`set(self._streams.keys()) - set(unblocked)`. -/
def PriorityTree.priorities (t : PriorityTree)
    (blocked unblocked : Option (List Nat)) (fuel : Nat) :
    Option (Except PriorityError (List StreamRef)) × PriorityTree :=
  match blocked, unblocked with
  | none, none => (some (.ok (t.top_level.map StreamRef.owned)), t)
  | some _, some _ => (some (.error .valueError), t)
  | some b, none =>
      ((t.walk b fuel).map (fun out => .ok (out.map StreamRef.copied)), t)
  | none, some u =>
      let all_stream_ids := t.keys
      let b := all_stream_ids.filter (fun k => !u.contains k)
      ((t.walk b fuel).map (fun out => .ok (out.map StreamRef.copied)), t)

end Priority

namespace Priority

/-- The tree after `insert_stream(1)` on a fresh tree. -/
def treeOne : PriorityTree := ⟨[⟨1, 16, []⟩], [0], [(1, 0)]⟩

example : PriorityTree.fresh.insert_stream 1 = .ok treeOne := rfl

/-- The tree after `insert_stream(1); insert_stream(3)` on a fresh tree. -/
def treeTwo : PriorityTree :=
  ⟨[⟨1, 16, []⟩, ⟨3, 16, []⟩], [0, 1], [(1, 0), (3, 1)]⟩

example : treeOne.insert_stream 3 = .ok treeTwo := rfl

/-- The tree after `insert_stream(1); insert_stream(3, depends_on=1,
exclusive=True)`: node 3 hangs beneath node 1 in the tree, but the
identifier index still only knows stream 1. -/
def treeOneExcl : PriorityTree :=
  ⟨[⟨1, 16, [1]⟩, ⟨3, 16, []⟩], [0], [(1, 0)]⟩

/-- C1: the claim fails on this code.  After `insert_stream(1)` the
exclusive insert `insert_stream(3, depends_on=1, exclusive=True)`
succeeds and places the new node for stream 3 in the tree (it is the sole
child, at address 1, of the node for stream 1), yet the identifier index
`_streams` has no entry for 3: the exclusive branch of `insert_stream`
returns before the line `self._streams[stream_id] = stream` runs.  The
repository's own test suite addresses exclusively-inserted streams through
the index, so the code, not the claim, is wrong. -/
theorem exclusive_insert_skips_identifier_index :
    treeOne.insert_stream 3 (some 1) 16 true = .ok treeOneExcl ∧
    dictGet treeOneExcl.streams 3 = none ∧
    treeOneExcl.store.get? 0 = some ⟨1, 16, [1]⟩ ∧
    treeOneExcl.store.get? 1 = some ⟨3, 16, []⟩ :=
  ⟨rfl, rfl, rfl, rfl⟩

/-- C2: the claim fails on this code.  Inserting a stream whose
`depends_on` is a non-zero identifier absent from the index raises
`KeyError` from the lookup `self._streams[depends_on]` instead of
implicitly creating the parent as a blocked placeholder; the test
`test_priority_allows_inserting_stream_with_absent_parent` expects the
implicit creation, so the code, not the claim, is wrong. -/
theorem insert_with_absent_parent_raises_key_error :
    PriorityTree.fresh.insert_stream 3 (some 1) 16 false =
      .error (.keyError 1) ∧
    PriorityTree.fresh.insert_stream 3 (some 1) 16 true =
      .error (.keyError 1) :=
  ⟨rfl, rfl⟩

/-- C3: the claim fails on this code.  `insert_stream` performs no
duplicate check: inserting stream 1 twice succeeds, leaves two distinct
nodes both carrying stream id 1 in the tree, and silently repoints the
index entry for 1 at the second node.  The test
`test_priority_tree_raises_error_inserting_duplicate` expects
`DuplicateStreamError`, so the code, not the claim, is wrong. -/
theorem duplicate_insert_is_not_rejected :
    treeOne.insert_stream 1 =
      .ok ⟨[⟨1, 16, []⟩, ⟨1, 16, []⟩], [0, 1], [(1, 1)]⟩ :=
  rfl

/-- C8: the claim fails on this code.  `PriorityTree.__init__` takes no
`maximum_streams` argument and the tree stores no cap, so no insertion
can ever fail with `TooManyStreamsError`: every error `insert_stream` can
return is an `assertionError` or a `keyError`.  The test
`test_priority_refuses_to_allow_too_many_streams_in_tree` constructs
`PriorityTree(maximum_streams=count)` and expects the cap to be enforced,
so the code, not the claim, is wrong. -/
theorem insert_stream_never_reports_too_many_streams
    (t : PriorityTree) (stream_id : Nat) (depends_on : Option Nat)
    (weight : ℚ) (exclusive : Bool) (e : PriorityError)
    (h : t.insert_stream stream_id depends_on weight exclusive = .error e) :
    e = .assertionError ∨ ∃ d, e = .keyError d := by
  unfold PriorityTree.insert_stream at h
  dsimp only at h
  repeat' split at h
  all_goals
    first
      | exact Or.inl (Except.error.inj h).symm
      | exact Or.inr ⟨_, (Except.error.inj h).symm⟩
      | exact absurd h (by simp)

/-- C8 witness: inserting under an absent parent fails with a `keyError`,
which the theorem classifies. -/
theorem insert_stream_never_reports_too_many_streams_check :
    PriorityError.keyError 1 = PriorityError.assertionError ∨
      ∃ d, PriorityError.keyError 1 = PriorityError.keyError d :=
  insert_stream_never_reports_too_many_streams
    PriorityTree.fresh 3 (some 1) 16 false (.keyError 1) rfl

/-- C10: `priorities` raises `ValueError` exactly on the calls that
supply both a `blocked` and an `unblocked` argument; a call supplying at
most one of them never produces that error, and the tree is unchanged
in every case. -/
theorem priorities_value_error_iff_both_arguments
    (t : PriorityTree) (blocked unblocked : Option (List Nat))
    (fuel : Nat) :
    ((blocked ≠ none ∧ unblocked ≠ none) →
      t.priorities blocked unblocked fuel = (some (.error .valueError), t)) ∧
    ((blocked = none ∨ unblocked = none) →
      ∀ r, (t.priorities blocked unblocked fuel).1 = some r →
        r ≠ .error .valueError) := by
  cases blocked <;> cases unblocked <;> simp [PriorityTree.priorities]

/-- C10 witness: both arguments supplied on a concrete tree gives
`ValueError` with the tree untouched. -/
theorem priorities_value_error_iff_both_arguments_check :
    treeOne.priorities (some [1]) (some [3]) 5 =
      (some (.error .valueError), treeOne) :=
  (priorities_value_error_iff_both_arguments
    treeOne (some [1]) (some [3]) 5).1 ⟨by simp, by simp⟩

/-- C6 counterexample: with neither `blocked` nor `unblocked` supplied,
`priorities` takes the fast path `return Priorities(self._top_level)`,
which hands the caller the tree's own node objects (here the node at
store address 0), not copies — refuting the claim that the streams
returned are always copies rather than the tree's own nodes. -/
theorem priorities_fast_path_returns_owned_nodes :
    (treeOne.priorities none none 1).1 = some (.ok [StreamRef.owned 0]) ∧
    StreamRef.isOwned (StreamRef.owned 0) = true :=
  ⟨rfl, rfl⟩

/-- C6 (amended): computing the prioritised output never changes the
tree — its node store, top-level list and identifier index are exactly
as before — and whenever a `blocked` or `unblocked` filter is actually
supplied, every stream returned is a fresh copy produced by `_walk`
rather than one of the tree's own nodes.  (With no filter supplied the
fast path returns the tree's own top-level nodes.) -/
theorem priorities_preserves_tree_and_filtered_output_is_copies
    (t : PriorityTree) (blocked unblocked : Option (List Nat))
    (fuel : Nat) :
    (t.priorities blocked unblocked fuel).2 = t ∧
    (∀ out, (blocked.isSome ∨ unblocked.isSome) →
      (t.priorities blocked unblocked fuel).1 = some (.ok out) →
      out.all (fun x => !x.isOwned) = true) := by
  cases blocked <;> cases unblocked <;> refine ⟨rfl, ?_⟩ <;>
    intro out hsome hok
  · exact absurd hsome (by simp)
  · simp only [PriorityTree.priorities] at hok
    rcases Option.map_eq_some.mp hok with ⟨o, -, hok2⟩
    rw [← Except.ok.inj hok2]
    simp [List.all_map, StreamRef.isOwned, Function.comp]
  · simp only [PriorityTree.priorities] at hok
    rcases Option.map_eq_some.mp hok with ⟨o, -, hok2⟩
    rw [← Except.ok.inj hok2]
    simp [List.all_map, StreamRef.isOwned, Function.comp]
  · simp only [PriorityTree.priorities] at hok
    exact absurd (Option.some.inj hok) (by simp)

/-- C4: when the tree contains the stream `d` (the identifier index
resolves it to a live node), `insert_stream(stream_id, depends_on=d,
weight, exclusive=True)` succeeds; afterwards the parent's sole child is
the newly allocated node, the new node's children are exactly the
parent's former children (the same nodes, by address), every node keeps
its stream id and weight — in particular each former child's weight is
unchanged — and the top level and identifier index are untouched. -/
theorem exclusive_insert_reparents_former_children
    (t : PriorityTree) (stream_id d : Nat) (weight : ℚ)
    (pa : Nat) (parent_stream : Stream)
    (hd : dictGet t.streams d = some pa)
    (hp : t.store.get? pa = some parent_stream) :
    ∃ T, t.insert_stream stream_id (some d) weight true = .ok T ∧
      T.store.get? pa =
        some ⟨parent_stream.stream_id, parent_stream.weight,
              [t.store.length]⟩ ∧
      T.store.get? t.store.length =
        some ⟨stream_id, weight, parent_stream.children⟩ ∧
      (∀ a s, t.store.get? a = some s →
        ∃ s2, T.store.get? a = some s2 ∧
          s2.stream_id = s.stream_id ∧ s2.weight = s.weight) ∧
      T.top_level = t.top_level ∧ T.streams = t.streams := by
  have hlt : pa < t.store.length := by
    rcases List.get?_eq_some.mp hp with ⟨h, -⟩
    exact h
  have hne : pa ≠ t.store.length := Nat.ne_of_lt hlt
  unfold PriorityTree.insert_stream
  simp only [hd, hp, if_true]
  refine ⟨_, rfl, ?_, ?_, ?_, rfl, rfl⟩
  · rw [List.get?_set_ne _ _ (fun h => hne h.symm), List.get?_set_eq_of_lt]
    simp [List.length_append, Nat.lt_succ_of_lt hlt]
  · rw [List.get?_set_eq_of_lt]
    simp [List.length_set, List.length_append]
  · intro a s hs
    have halt : a < t.store.length := by
      rcases List.get?_eq_some.mp hs with ⟨h, -⟩
      exact h
    by_cases hapa : a = pa
    · subst hapa
      have : s = parent_stream := by
        rw [hs] at hp; exact Option.some.inj hp
      subst this
      refine ⟨⟨s.stream_id, s.weight, [t.store.length]⟩, ?_, rfl, rfl⟩
      rw [List.get?_set_ne _ _ (fun h => hne h.symm), List.get?_set_eq_of_lt]
      simp [List.length_append, Nat.lt_succ_of_lt hlt]
    · refine ⟨s, ?_, rfl, rfl⟩
      rw [List.get?_set_ne _ _ (fun h => (Nat.ne_of_lt halt) h.symm),
        List.get?_set_ne _ _ (fun h => hapa h.symm),
        List.get?_append halt]
      exact hs

/-- C4 witness: inserting stream 3 exclusively beneath stream 1 on the
concrete one-stream tree. -/
theorem exclusive_insert_reparents_former_children_check :
    ∃ T, treeOne.insert_stream 3 (some 1) 16 true = .ok T ∧
      T.store.get? 0 = some ⟨1, 16, [1]⟩ ∧
      T.store.get? 1 = some ⟨3, 16, []⟩ ∧
      (∀ a s, treeOne.store.get? a = some s →
        ∃ s2, T.store.get? a = some s2 ∧
          s2.stream_id = s.stream_id ∧ s2.weight = s.weight) ∧
      T.top_level = treeOne.top_level ∧ T.streams = treeOne.streams :=
  exclusive_insert_reparents_former_children
    treeOne 3 1 16 0 ⟨1, 16, []⟩ rfl rfl

theorem contains_iff_mem_nat {l : List Nat} {x : Nat} :
    l.contains x = true ↔ x ∈ l :=
  List.elem_iff

/-- The walk depends on the stream filter only through membership: two
filters containing the same stream ids drive identical walks. -/
theorem walkAux_congr (store : List Stream) {f1 f2 : List Nat}
    (h : ∀ id, f1.contains id = f2.contains id) :
    ∀ (fuel : Nat) (q : List (Stream × ℚ)),
      walkAux store f1 fuel q = walkAux store f2 fuel q := by
  intro fuel
  induction fuel with
  | zero => intro q; cases q <;> rfl
  | succ n ih =>
    intro q
    cases q with
    | nil => rfl
    | cons p rest =>
      obtain ⟨stream, ew⟩ := p
      simp only [walkAux]
      rw [h stream.stream_id]
      split
      · exact ih _
      · rw [ih rest]

/-- C5: for a set `S` of stream identifiers drawn from the identifier
index, the prioritised output with `S` as the blocked set equals the
prioritised output with the complement of `S` (relative to all stream
identifiers in the index) as the unblocked set: the unblocked path
recomputes `set(self._streams.keys()) - set(unblocked)`, which has
exactly the members of `S`, and `_walk` only tests membership. -/
theorem blocked_set_equals_unblocked_complement
    (t : PriorityTree) (S : List Nat) (fuel : Nat)
    (hS : ∀ s ∈ S, s ∈ t.keys) :
    t.priorities (some S) none fuel =
      t.priorities none
        (some (t.keys.filter (fun k => !S.contains k))) fuel := by
  simp only [PriorityTree.priorities]
  refine congrArg (fun o => (o, t)) ?_
  refine congrArg (Option.map _) ?_
  unfold PriorityTree.walk
  refine walkAux_congr t.store ?_ fuel _
  intro id
  rw [Bool.eq_iff_iff, contains_iff_mem_nat, contains_iff_mem_nat]
  constructor
  · intro hid
    refine List.mem_filter.mpr ⟨hS id hid, ?_⟩
    simp only [Bool.not_eq_eq_eq_not, Bool.not_true]
    rw [← Bool.not_eq_true, contains_iff_mem_nat]
    intro hmem
    have := (List.mem_filter.mp hmem).2
    rw [Bool.not_eq_eq_eq_not, Bool.not_true, ← Bool.not_eq_true,
      contains_iff_mem_nat] at this
    exact this hid
  · intro hid
    have h2 := (List.mem_filter.mp hid).2
    have h1 := (List.mem_filter.mp hid).1
    rw [Bool.not_eq_eq_eq_not, Bool.not_true, ← Bool.not_eq_true,
      contains_iff_mem_nat] at h2
    by_contra hS'
    exact h2 (List.mem_filter.mpr ⟨h1, by
      simp only [Bool.not_eq_eq_eq_not, Bool.not_true]
      rw [← Bool.not_eq_true, contains_iff_mem_nat]
      exact hS'⟩)

/-- C5 witness: on the concrete two-stream tree, blocking stream 1
produces the same output as unblocking its complement. -/
theorem blocked_set_equals_unblocked_complement_check :
    treeTwo.priorities (some [1]) none 4 =
      treeTwo.priorities none
        (some (treeTwo.keys.filter (fun k => !([1] : List Nat).contains k)))
        4 :=
  blocked_set_equals_unblocked_complement treeTwo [1] 4 (by decide)

/-- C9: no division by zero in the effective-weight computation.  When
`_walk` expands a blocked stream `s` (one whose id is in the filter), the
divisor it passes to `effective_stream_weight` is
`level_weight(s.children)`, and it divides only when iterating a
non-empty `s.children`.  Every stream the walk ever expands is a node of
the tree, so it suffices that for every tree node with non-empty
children, the sum of the (resolved) children's weights is strictly
positive — which holds whenever all stream weights lie in [1, 256]. -/
theorem walk_expansion_divisor_is_positive
    (t : PriorityTree) (stream_filter : List Nat) (s : Stream)
    (hw : ∀ u ∈ t.store, 1 ≤ u.weight ∧ u.weight ≤ 256)
    (hwf : ∀ u ∈ t.store, ∀ a ∈ u.children, a < t.store.length)
    (hs : s ∈ t.store)
    (hfilter : stream_filter.contains s.stream_id = true)
    (hchildren : s.children ≠ []) :
    0 < level_weight (resolve t.store s.children) := by
  unfold level_weight
  refine List.sum_pos _ ?_ ?_
  · intro x hx
    rcases List.mem_map.mp hx with ⟨c, hc, rfl⟩
    rcases List.mem_filterMap.mp hc with ⟨a, -, hget⟩
    have hcmem : c ∈ t.store := List.get?_mem hget
    exact lt_of_lt_of_le zero_lt_one (hw c hcmem).1
  · intro hmapnil
    have hres : resolve t.store s.children = [] :=
      List.map_eq_nil.mp hmapnil
    cases hch : s.children with
    | nil => exact hchildren hch
    | cons a rest =>
      have halt : a < t.store.length :=
        hwf s hs a (by rw [hch]; exact List.mem_cons_self a rest)
      rw [hch] at hres
      unfold resolve at hres
      rw [List.filterMap_cons] at hres
      cases hg : t.store.get? a with
      | none =>
        rw [List.get?_eq_none] at hg
        omega
      | some c =>
        rw [hg] at hres
        exact List.cons_ne_nil _ _ hres

/-- C9 witness: in the concrete tree where node 1 has child node 3, the
divisor for expanding blocked stream 1 is 16 > 0. -/
theorem walk_expansion_divisor_is_positive_check :
    0 < level_weight (resolve treeOneExcl.store [1]) :=
  walk_expansion_divisor_is_positive treeOneExcl [1] ⟨1, 16, [1]⟩
    (by decide) (by decide) (by decide) (by decide) (by decide)

/-- Modelled from the spec: the stream node of §3 with the per-node child
scheduler of §4.1.  The descent driver `next()` and the deficit-keyed
child scheduler are absent from the code under `src/` — only the test
suite calls them — so they are modelled here from the specification.  A
node carries its identifier, weight, active flag, `last_deficit` counter,
and its child queue as `(deficit, child)` entries. -/
inductive SNode where
  | node (stream_id : Nat) (weight : Nat) (active : Bool)
      (last_deficit : Nat) (queue : List (Nat × SNode)) : SNode

def SNode.stream_id : SNode → Nat
  | .node i _ _ _ _ => i

def SNode.weight : SNode → Nat
  | .node _ w _ _ _ => w

def SNode.active : SNode → Bool
  | .node _ _ a _ _ => a

def SNode.queue : SNode → List (Nat × SNode)
  | .node _ _ _ _ q => q

/-- Queue order of §4.1: smallest deficit first, ties broken by stream
identifier ascending. -/
def queueLe (a b : Nat × SNode) : Bool :=
  decide (a.1 < b.1 ∨ (a.1 = b.1 ∧ a.2.stream_id ≤ b.2.stream_id))

def insertSorted (p : Nat × SNode) : List (Nat × SNode) → List (Nat × SNode)
  | [] => [p]
  | q :: rest =>
    if queueLe p q then p :: q :: rest else q :: insertSorted p rest

/-- Order the child queue by `(deficit, stream_id)` so that repeatedly
taking the head dequeues as §4.1 prescribes. -/
def sortQueue : List (Nat × SNode) → List (Nat × SNode)
  | [] => []
  | p :: rest => insertSorted p (sortQueue rest)

mutual

/-- Modelled from the spec: the schedule operation of §4.1, with a fuel
bound on the recursion depth.  Dequeue the child with the smallest
`(deficit, stream_id)`; an active child is chosen directly; an inactive
child is asked to schedule a descendant, and if its subtree has no work
the next-smallest child is tried; the chosen child is reinserted at
`dequeued_deficit + 256 / weight` and the dequeued deficit becomes the
node's `last_deficit`.  `none` means no active stream in the subtree (or
fuel exhausted below the tree's depth). -/
def schedule (fuel : Nat) (n : SNode) : Option (Nat × SNode) :=
  match fuel, n with
  | 0, _ => none
  | f + 1, .node i w a _ q => scheduleSorted f i w a (sortQueue q) []
termination_by (fuel, 0)

/-- The traversal of the sorted child queue: `l` is the not-yet-tried
tail, `skipped` the children already tried and found workless. -/
def scheduleSorted (fuel : Nat) (i w : Nat) (a : Bool)
    (l skipped : List (Nat × SNode)) : Option (Nat × SNode) :=
  match l with
  | [] => none
  | (d, c) :: rest =>
    if c.active then
      some (c.stream_id,
        .node i w a d (skipped.reverse ++ (d + 256 / c.weight, c) :: rest))
    else
      match schedule fuel c with
      | some (chosen, c2) =>
        some (chosen,
          .node i w a d (skipped.reverse ++ (d + 256 / c.weight, c2) :: rest))
      | none => scheduleSorted fuel i w a rest ((d, c) :: skipped)
termination_by (fuel, l.length + 1)

end

/-- Modelled from the spec: `next()` of §4.3 — schedule on the root, or
`DeadlockError` when no active stream exists anywhere in the tree. -/
def treeNext (fuel : Nat) (root : SNode) :
    Except PriorityError (Nat × SNode) :=
  match schedule fuel root with
  | some (res, root2) => .ok (res, root2)
  | none => .error .deadlockError

mutual

/-- Whether the subtree rooted at a node contains an active stream. -/
def SNode.subtreeActive : SNode → Bool
  | .node _ _ a _ q => a || queueActive q

/-- Whether any subtree hanging off a child queue contains an active
stream. -/
def queueActive : List (Nat × SNode) → Bool
  | [] => false
  | (_, c) :: rest => c.subtreeActive || queueActive rest

end

mutual

/-- Depth of a node (1 for a leaf). -/
def SNode.depth : SNode → Nat
  | .node _ _ _ _ q => 1 + queueDepth q

/-- Greatest depth among the children in a queue. -/
def queueDepth : List (Nat × SNode) → Nat
  | [] => 0
  | (_, c) :: rest => max c.depth (queueDepth rest)

end

mutual

/-- All stream identifiers in the subtree are positive. -/
def SNode.idsPositive : SNode → Bool
  | .node i _ _ _ q => decide (0 < i) && queueIdsPositive q

/-- All stream identifiers hanging off a child queue are positive. -/
def queueIdsPositive : List (Nat × SNode) → Bool
  | [] => true
  | (_, c) :: rest => c.idsPositive && queueIdsPositive rest

end

theorem subtreeActive_eq (c : SNode) :
    c.subtreeActive = (c.active || queueActive c.queue) := by
  cases c; rfl

theorem idsPositive_eq (c : SNode) :
    c.idsPositive =
      (decide (0 < c.stream_id) && queueIdsPositive c.queue) := by
  cases c; rfl

theorem depth_eq (c : SNode) : c.depth = 1 + queueDepth c.queue := by
  cases c; rfl

theorem mem_insertSorted {x p : Nat × SNode} {l : List (Nat × SNode)} :
    x ∈ insertSorted p l ↔ x = p ∨ x ∈ l := by
  induction l with
  | nil => simp [insertSorted]
  | cons q rest ih =>
    simp only [insertSorted]
    split
    · simp [List.mem_cons]
    · simp [List.mem_cons, ih]
      tauto

theorem mem_sortQueue {x : Nat × SNode} {l : List (Nat × SNode)} :
    x ∈ sortQueue l ↔ x ∈ l := by
  induction l with
  | nil => simp [sortQueue]
  | cons p rest ih => simp [sortQueue, mem_insertSorted, ih, List.mem_cons]

theorem depth_le_queueDepth {d : Nat} {c : SNode}
    {q : List (Nat × SNode)} (h : (d, c) ∈ q) :
    c.depth ≤ queueDepth q := by
  induction q with
  | nil => cases h
  | cons p rest ih =>
    obtain ⟨d0, c0⟩ := p
    rcases List.mem_cons.mp h with h0 | h0
    · rw [(Prod.mk.injEq .. |>.mp h0).2] at *
      exact le_max_left _ _
    · exact le_trans (ih h0) (le_max_right _ _)

theorem idsPositive_of_mem {d : Nat} {c : SNode}
    {q : List (Nat × SNode)} (hq : queueIdsPositive q = true)
    (h : (d, c) ∈ q) : c.idsPositive = true := by
  induction q with
  | nil => cases h
  | cons p rest ih =>
    obtain ⟨d0, c0⟩ := p
    simp only [queueIdsPositive, Bool.and_eq_true] at hq
    rcases List.mem_cons.mp h with h0 | h0
    · rw [(Prod.mk.injEq .. |>.mp h0).2]
      exact hq.1
    · exact ih hq.2 h0

theorem queueActive_iff {l : List (Nat × SNode)} :
    queueActive l = true ↔ ∃ p ∈ l, (p.2).subtreeActive = true := by
  induction l with
  | nil => simp [queueActive]
  | cons p rest ih =>
    obtain ⟨d, c⟩ := p
    simp only [queueActive, Bool.or_eq_true, ih]
    constructor
    · rintro (h | ⟨p, hp, hact⟩)
      · exact ⟨(d, c), List.mem_cons_self _ _, h⟩
      · exact ⟨p, List.mem_cons_of_mem _ hp, hact⟩
    · rintro ⟨p, hp, hact⟩
      rcases List.mem_cons.mp hp with h0 | h0
      · rw [h0] at hact
        exact Or.inl hact
      · exact Or.inr ⟨p, h0, hact⟩

/-- A subtree schedules nothing exactly when it contains no active
stream, provided the fuel covers the node's depth. -/
theorem schedule_eq_none_iff (fuel : Nat) :
    ∀ n : SNode, n.depth ≤ fuel →
      (schedule fuel n = none ↔
        ¬∃ p ∈ n.queue, (p.2).subtreeActive = true) := by
  induction fuel with
  | zero =>
    intro n hd
    cases n with
    | node i w a ld q =>
      rw [depth_eq] at hd
      omega
  | succ f ih =>
    intro n hd
    cases n with
    | node i w a ld q =>
      have hq : queueDepth q ≤ f := by
        rw [depth_eq] at hd
        simp only [SNode.queue] at hd
        omega
      have hsch : schedule (f + 1) (.node i w a ld q) =
          scheduleSorted f i w a (sortQueue q) [] := by
        simp [schedule]
      rw [hsch]
      simp only [SNode.queue]
      have inner : ∀ (l skipped : List (Nat × SNode)),
          (∀ p ∈ l, p ∈ q) →
          (scheduleSorted f i w a l skipped = none ↔
            ¬∃ p ∈ l, (p.2).subtreeActive = true) := by
        intro l
        induction l with
        | nil =>
          intro skipped _
          simp [scheduleSorted]
        | cons hp tl ihl =>
          obtain ⟨d, c⟩ := hp
          intro skipped hmem
          have hcq : c.depth ≤ f :=
            le_trans
              (depth_le_queueDepth (hmem (d, c) (List.mem_cons_self _ _)))
              hq
          simp only [scheduleSorted]
          by_cases hact : c.active = true
          · rw [if_pos hact]
            constructor
            · intro h
              exact absurd h (by simp)
            · intro hno
              exact absurd
                ⟨(d, c), List.mem_cons_self _ _, by
                  rw [subtreeActive_eq, hact, Bool.true_or]⟩ hno
          · rw [if_neg hact]
            have hact' : c.active = false := by
              revert hact; cases c.active <;> simp
            cases hsc : schedule f c with
            | some pr =>
              obtain ⟨chosen, c2⟩ := pr
              simp only []
              constructor
              · intro h
                exact absurd h (by simp)
              · intro hno
                have hne : ¬ (schedule f c = none) := by
                  rw [hsc]; simp
                have hex : ∃ p ∈ c.queue, (p.2).subtreeActive = true := by
                  by_contra hnex
                  exact hne ((ih c hcq).mpr hnex)
                refine absurd ⟨(d, c), List.mem_cons_self _ _, ?_⟩ hno
                rw [subtreeActive_eq, queueActive_iff.mpr hex,
                  Bool.or_true]
            | none =>
              simp only []
              rw [ihl ((d, c) :: skipped)
                (fun p hp => hmem p (List.mem_cons_of_mem _ hp))]
              have hcsub : c.subtreeActive = false := by
                rw [subtreeActive_eq, hact', Bool.false_or]
                cases hqa : queueActive c.queue
                · rfl
                · exact absurd (queueActive_iff.mp hqa) ((ih c hcq).mp hsc)
              constructor
              · rintro hno ⟨p, hp, hpact⟩
                rcases List.mem_cons.mp hp with h0 | h0
                · rw [h0] at hpact
                  rw [hpact] at hcsub
                  cases hcsub
                · exact hno ⟨p, h0, hpact⟩
              · rintro hno ⟨p, hp, hpact⟩
                exact hno ⟨p, List.mem_cons_of_mem _ hp, hpact⟩
      rw [inner (sortQueue q) [] (fun p hp => mem_sortQueue.mp hp)]
      constructor
      · rintro hno ⟨p, hp, hpact⟩
        exact hno ⟨p, mem_sortQueue.mpr hp, hpact⟩
      · rintro hno ⟨p, hp, hpact⟩
        exact hno ⟨p, mem_sortQueue.mp hp, hpact⟩

/-- A scheduled stream identifier is the identifier of some stream in
the tree, hence positive when all of them are. -/
theorem schedule_returns_positive_id (fuel : Nat) :
    ∀ n : SNode, queueIdsPositive n.queue = true →
      ∀ r n2, schedule fuel n = some (r, n2) → 0 < r := by
  induction fuel with
  | zero =>
    intro n _ r n2 h
    rw [show schedule 0 n = none by simp [schedule]] at h
    cases h
  | succ f ih =>
    intro n hpos r n2 h
    cases n with
    | node i w a ld q =>
      simp only [SNode.queue] at hpos
      rw [show schedule (f + 1) (.node i w a ld q) =
          scheduleSorted f i w a (sortQueue q) [] by simp [schedule]] at h
      revert h
      have inner : ∀ (l skipped : List (Nat × SNode)),
          (∀ p ∈ l, p ∈ q) →
          scheduleSorted f i w a l skipped = some (r, n2) → 0 < r := by
        intro l
        induction l with
        | nil =>
          intro skipped _ hcontra
          simp [scheduleSorted] at hcontra
        | cons hp tl ihl =>
          obtain ⟨d, c⟩ := hp
          intro skipped hmem hss
          have hcpos : c.idsPositive = true :=
            idsPositive_of_mem hpos (hmem (d, c) (List.mem_cons_self _ _))
          simp only [scheduleSorted] at hss
          by_cases hact : c.active = true
          · rw [if_pos hact] at hss
            have hfst : c.stream_id = r :=
              congrArg Prod.fst (Option.some.inj hss)
            rw [← hfst]
            rw [idsPositive_eq, Bool.and_eq_true] at hcpos
            exact of_decide_eq_true hcpos.1
          · rw [if_neg hact] at hss
            cases hsc : schedule f c with
            | some pr =>
              obtain ⟨chosen, c2⟩ := pr
              rw [hsc] at hss
              simp only [] at hss
              have hfst : chosen = r :=
                congrArg Prod.fst (Option.some.inj hss)
              rw [← hfst]
              rw [idsPositive_eq, Bool.and_eq_true] at hcpos
              exact ih c hcpos.2 chosen c2 hsc
            | none =>
              rw [hsc] at hss
              simp only [] at hss
              exact ihl ((d, c) :: skipped)
                (fun p hp => hmem p (List.mem_cons_of_mem _ hp)) hss
      exact inner (sortQueue q) [] (fun p hp => mem_sortQueue.mp hp)

/-- C7 (modelled from the spec, since `next()` is absent from the code
under `src/`): on a tree whose root is stream 0, blocked, with all other
stream identifiers positive, `next()` returns a positive stream
identifier whenever at least one non-root stream is active, and raises
`DeadlockError` exactly when no active stream exists anywhere in the
tree. -/
theorem next_on_root_finds_active_or_deadlocks
    (w ld fuel : Nat) (q : List (Nat × SNode))
    (hfuel : SNode.depth (.node 0 w false ld q) ≤ fuel)
    (hpos : queueIdsPositive q = true) :
    (queueActive q = true →
      ∃ r root2, treeNext fuel (.node 0 w false ld q) = .ok (r, root2) ∧
        0 < r) ∧
    (queueActive q = false →
      treeNext fuel (.node 0 w false ld q) = .error .deadlockError) := by
  have hiff := schedule_eq_none_iff fuel (.node 0 w false ld q) hfuel
  simp only [SNode.queue] at hiff
  constructor
  · intro hact
    cases hsc : schedule fuel (.node 0 w false ld q) with
    | none =>
      exact absurd (queueActive_iff.mp hact) (hiff.mp hsc)
    | some pr =>
      obtain ⟨r, root2⟩ := pr
      refine ⟨r, root2, ?_, ?_⟩
      · simp only [treeNext, hsc]
      · exact schedule_returns_positive_id fuel (.node 0 w false ld q)
          hpos r root2 hsc
  · intro hnact
    have hnone : schedule fuel (.node 0 w false ld q) = none := by
      rw [hiff]
      rintro ⟨p, hp, hpact⟩
      have : queueActive q = true := queueActive_iff.mpr ⟨p, hp, hpact⟩
      rw [this] at hnact
      cases hnact
    simp only [treeNext, hnone]

/-- C7 witness: a root with one active child (stream 1) yields a
positive identifier; the same root with the child blocked deadlocks. -/
theorem next_on_root_finds_active_or_deadlocks_check :
    (∃ r root2,
      treeNext 2 (.node 0 16 false 0 [(0, .node 1 16 true 0 [])]) =
        .ok (r, root2) ∧ 0 < r) ∧
    treeNext 2 (.node 0 16 false 0 [(0, .node 1 16 false 0 [])]) =
      .error .deadlockError :=
  ⟨(next_on_root_finds_active_or_deadlocks 16 0 2
      [(0, .node 1 16 true 0 [])]
      (by simp [SNode.depth, queueDepth])
      (by simp [queueIdsPositive, SNode.idsPositive])).1
    (by simp [queueActive, subtreeActive_eq, SNode.active]),
   (next_on_root_finds_active_or_deadlocks 16 0 2
      [(0, .node 1 16 false 0 [])]
      (by simp [SNode.depth, queueDepth])
      (by simp [queueIdsPositive, SNode.idsPositive])).2
    (by simp [queueActive, subtreeActive_eq, SNode.active])⟩

/-- C6 witness: on a concrete tree with a (trivial) blocked filter the
tree is unchanged and the returned stream is a copy. -/
theorem priorities_preserves_tree_and_filtered_output_is_copies_check :
    (treeOne.priorities (some []) none 1).2 = treeOne ∧
    List.all [StreamRef.copied ⟨1, 16, []⟩] (fun x => !x.isOwned) = true :=
  ⟨(priorities_preserves_tree_and_filtered_output_is_copies
      treeOne (some []) none 1).1,
   (priorities_preserves_tree_and_filtered_output_is_copies
      treeOne (some []) none 1).2 [StreamRef.copied ⟨1, 16, []⟩]
      (Or.inl rfl) rfl⟩

end Priority
